import Mathlib

/-!
Verification of the extraction and rendering engine of `docs.py`
(automatic HTML documentation generation for Python sources).

Texts are modelled as `List Char`.  Each regular expression used by the
source is translated into an explicit character-level scanner with the
exact semantics of Python `re` on that particular pattern (leftmost match,
greedy or lazy repetition as written, DOTALL or MULTILINE as flagged).
Python `str` helpers (`replace`, `split`, `strip`, `lower`) are modelled
directly.  The ASCII fragments of the character classes are modelled; the
program only ever feeds ASCII documentation text to them.

Mutating loops of the source (`extract_params`, the class loop of
`DocsBuilder.extract`) are modelled with an explicit fuel argument; the
value `none` means the fuel ran out.  Termination theorems show the fuel
`length + 1` always suffices.  Python exceptions (AttributeError on a
failed `.group()`, ValueError on a failed unpacking) are modelled with
`Except`/`Option` failure values.
-/

abbrev Str := List Char

def chars (s : String) : Str := s.data

/-- Python `\w` (ASCII part): letters, digits and underscore. -/
def isWordChar (c : Char) : Bool := c.isAlphanum || c = '_'

/-- Python `\s` (ASCII part): the six ASCII whitespace characters. -/
def isSpaceChar (c : Char) : Bool :=
  c = ' ' || c = '\t' || c = '\n' || c = '\r' || c = '\x0b' || c = '\x0c'

/-- Does `pat` occur as a contiguous substring of `l`? -/
def containsSub (l pat : Str) : Bool :=
  match l with
  | [] => pat.isEmpty
  | _ :: rest => pat.isPrefixOf l || containsSub rest pat

/-- Index of the first occurrence of `pat` in `l` (Python `re`/`str.find` style). -/
def findSub (l pat : Str) : Option Nat :=
  match l with
  | [] => if pat.isEmpty then some 0 else none
  | _ :: rest => if pat.isPrefixOf l then some 0 else (findSub rest pat).map (· + 1)

/-- Index of the last occurrence of character `c` in `l`. -/
def lastIdxOf (l : Str) (c : Char) : Option Nat :=
  match l with
  | [] => none
  | a :: rest =>
    match lastIdxOf rest c with
    | some i => some (i + 1)
    | none => if a = c then some 0 else none

/-- Python `str.replace(pat, rep)`: replace every non-overlapping occurrence,
scanning left to right.  Structural in an explicit fuel argument so that the
kernel can evaluate it; `pyReplace` instantiates the fuel with the length of
the text, which always suffices. -/
def replaceAux (p : Char) (ps rep : Str) : Nat → Str → Str
  | _, [] => []
  | 0, l => l
  | n + 1, c :: rest =>
    if (p :: ps).isPrefixOf (c :: rest) then rep ++ replaceAux p ps rep n (rest.drop ps.length)
    else c :: replaceAux p ps rep n rest

/-- Python `str.replace`.  The source never calls `replace` with an empty
pattern (Python would interleave `rep` everywhere); that case is mapped to
the identity. -/
def pyReplace (l pat rep : Str) : Str :=
  match pat with
  | [] => l
  | p :: ps => replaceAux p ps rep l.length l

/-- Python `str.split(sep)` for a non-empty separator, fueled. -/
def splitAux (p : Char) (ps : Str) : Nat → Str → List Str
  | _, [] => [[]]
  | 0, l => [l]
  | n + 1, c :: rest =>
    if (p :: ps).isPrefixOf (c :: rest) then [] :: splitAux p ps n (rest.drop ps.length)
    else
      match splitAux p ps n rest with
      | [] => [[c]]
      | s :: tl => (c :: s) :: tl

/-- Python `str.split(sep)`.  The source never splits on an empty separator
(Python raises ValueError); that case yields the trivial splitting. -/
def pySplit (l pat : Str) : List Str :=
  match pat with
  | [] => [l]
  | p :: ps => splitAux p ps l.length l

/-- Python `re.sub(r"\s+", " ", ·)`: collapse every whitespace run to one space. -/
def collapseAux : Nat → Str → Str
  | _, [] => []
  | 0, l => l
  | n + 1, c :: rest =>
    if isSpaceChar c then ' ' :: collapseAux n (rest.dropWhile isSpaceChar)
    else c :: collapseAux n rest

def collapseWs (l : Str) : Str := collapseAux l.length l

/-- Python `str.strip()`: drop whitespace from both ends. -/
def pyStrip (l : Str) : Str :=
  ((l.dropWhile isSpaceChar).reverse.dropWhile isSpaceChar).reverse

/-- Python `str.lower()` on ASCII text. -/
def pyLower (l : Str) : Str := l.map Char.toLower

/-- Python `"\n".join(·)`. -/
def joinNl : List Str → Str
  | [] => []
  | [x] => x
  | x :: xs => x ++ '\n' :: joinNl xs

/-- Python `str.split("\n")`. -/
def splitLines (l : Str) : List Str := pySplit l ['\n']

/- ### Fuel congruence and clean unfolding equations -/

theorem replaceAux_congr (p : Char) (ps rep : Str) :
    ∀ n m l, l.length ≤ n → l.length ≤ m → replaceAux p ps rep n l = replaceAux p ps rep m l := by
  intro n
  induction n with
  | zero =>
    intro m l hn _
    have : l = [] := List.eq_nil_of_length_eq_zero (Nat.le_zero.mp hn)
    subst this
    cases m <;> rfl
  | succ n ih =>
    intro m l hn hm
    cases l with
    | nil => cases m <;> rfl
    | cons c rest =>
      cases m with
      | zero => exact absurd hm (by simp)
      | succ m =>
        simp only [replaceAux]
        have h1 : (rest.drop ps.length).length ≤ n := by
          have := List.length_drop ps.length rest
          simp only [List.length_cons] at hn
          omega
        have h2 : (rest.drop ps.length).length ≤ m := by
          have := List.length_drop ps.length rest
          simp only [List.length_cons] at hm
          omega
        have h3 : rest.length ≤ n := by simp only [List.length_cons] at hn; omega
        have h4 : rest.length ≤ m := by simp only [List.length_cons] at hm; omega
        by_cases hpre : (p :: ps).isPrefixOf (c :: rest) = true
        · rw [if_pos hpre, if_pos hpre, ih m (rest.drop ps.length) h1 h2]
        · rw [if_neg hpre, if_neg hpre, ih m rest h3 h4]

theorem pyReplace_nil (pat rep : Str) : pyReplace [] pat rep = [] := by
  cases pat <;> rfl

theorem pyReplace_cons (c : Char) (rest : Str) (p : Char) (ps rep : Str) :
    pyReplace (c :: rest) (p :: ps) rep =
      if (p :: ps).isPrefixOf (c :: rest) then rep ++ pyReplace (rest.drop ps.length) (p :: ps) rep
      else c :: pyReplace rest (p :: ps) rep := by
  simp only [pyReplace, List.length_cons, replaceAux]
  by_cases hpre : (p :: ps).isPrefixOf (c :: rest) = true
  · rw [if_pos hpre, if_pos hpre,
      replaceAux_congr p ps rep rest.length (rest.drop ps.length).length (rest.drop ps.length)
      (by have := List.length_drop ps.length rest; omega) (Nat.le_refl _)]
  · rw [if_neg hpre, if_neg hpre]

theorem splitAux_congr (p : Char) (ps : Str) :
    ∀ n m l, l.length ≤ n → l.length ≤ m → splitAux p ps n l = splitAux p ps m l := by
  intro n
  induction n with
  | zero =>
    intro m l hn _
    have : l = [] := List.eq_nil_of_length_eq_zero (Nat.le_zero.mp hn)
    subst this
    cases m <;> rfl
  | succ n ih =>
    intro m l hn hm
    cases l with
    | nil => cases m <;> rfl
    | cons c rest =>
      cases m with
      | zero => exact absurd hm (by simp)
      | succ m =>
        simp only [splitAux]
        have h1 : (rest.drop ps.length).length ≤ n := by
          have := List.length_drop ps.length rest
          simp only [List.length_cons] at hn
          omega
        have h2 : (rest.drop ps.length).length ≤ m := by
          have := List.length_drop ps.length rest
          simp only [List.length_cons] at hm
          omega
        have h3 : rest.length ≤ n := by simp only [List.length_cons] at hn; omega
        have h4 : rest.length ≤ m := by simp only [List.length_cons] at hm; omega
        by_cases hpre : (p :: ps).isPrefixOf (c :: rest) = true
        · rw [if_pos hpre, if_pos hpre, ih m (rest.drop ps.length) h1 h2]
        · rw [if_neg hpre, if_neg hpre, ih m rest h3 h4]

theorem pySplit_empty (p : Char) (ps : Str) : pySplit [] (p :: ps) = [[]] := rfl

theorem pySplit_cons (c : Char) (rest : Str) (p : Char) (ps : Str) :
    pySplit (c :: rest) (p :: ps) =
      if (p :: ps).isPrefixOf (c :: rest) then [] :: pySplit (rest.drop ps.length) (p :: ps)
      else
        match pySplit rest (p :: ps) with
        | [] => [[c]]
        | s :: tl => (c :: s) :: tl := by
  simp only [pySplit, List.length_cons, splitAux]
  by_cases hpre : (p :: ps).isPrefixOf (c :: rest) = true
  · rw [if_pos hpre, if_pos hpre,
      splitAux_congr p ps rest.length (rest.drop ps.length).length (rest.drop ps.length)
      (by have := List.length_drop ps.length rest; omega) (Nat.le_refl _)]
  · rw [if_neg hpre, if_neg hpre]

theorem collapseAux_congr :
    ∀ n m l, l.length ≤ n → l.length ≤ m → collapseAux n l = collapseAux m l := by
  intro n
  induction n with
  | zero =>
    intro m l hn _
    have : l = [] := List.eq_nil_of_length_eq_zero (Nat.le_zero.mp hn)
    subst this
    cases m <;> rfl
  | succ n ih =>
    intro m l hn hm
    cases l with
    | nil => cases m <;> rfl
    | cons c rest =>
      cases m with
      | zero => exact absurd hm (by simp)
      | succ m =>
        simp only [collapseAux]
        have h1 : (rest.dropWhile isSpaceChar).length ≤ n := by
          have := (List.dropWhile_suffix (l := rest) isSpaceChar).length_le
          simp only [List.length_cons] at hn
          omega
        have h2 : (rest.dropWhile isSpaceChar).length ≤ m := by
          have := (List.dropWhile_suffix (l := rest) isSpaceChar).length_le
          simp only [List.length_cons] at hm
          omega
        have h3 : rest.length ≤ n := by simp only [List.length_cons] at hn; omega
        have h4 : rest.length ≤ m := by simp only [List.length_cons] at hm; omega
        by_cases hsp : isSpaceChar c = true
        · rw [if_pos hsp, if_pos hsp, ih m (rest.dropWhile isSpaceChar) h1 h2]
        · rw [if_neg hsp, if_neg hsp, ih m rest h3 h4]

theorem collapseWs_nil : collapseWs [] = [] := rfl

theorem collapseWs_cons (c : Char) (rest : Str) :
    collapseWs (c :: rest) =
      if isSpaceChar c then ' ' :: collapseWs (rest.dropWhile isSpaceChar)
      else c :: collapseWs rest := by
  simp only [collapseWs, List.length_cons, collapseAux]
  by_cases hsp : isSpaceChar c = true
  · rw [if_pos hsp, if_pos hsp,
      collapseAux_congr rest.length (rest.dropWhile isSpaceChar).length (rest.dropWhile isSpaceChar)
      (List.dropWhile_suffix isSpaceChar).length_le (Nat.le_refl _)]
  · rw [if_neg hsp, if_neg hsp]

/- ### Insertion-ordered mappings (Python `dict` semantics) -/

/-- An insertion-ordered association list standing for a Python `dict` whose
keys are strings.  `dictInsert` models `d[k] = v`: an existing key keeps its
original position and gets the new value; a new key is appended. -/
abbrev Dict (α : Type) := List (Str × α)

def dictInsert {α : Type} (k : Str) (v : α) : Dict α → Dict α
  | [] => [(k, v)]
  | (k', v') :: rest => if k' = k then (k, v) :: rest else (k', v') :: dictInsert k v rest

/- ### The data model assembled by the extractor -/

structure ParamRecord where
  dtype : Str
  description : Str
  optional : Bool
deriving DecidableEq

structure FunctionRecord where
  description : Str
  parameters : Dict ParamRecord
deriving DecidableEq

structure ClassRecord where
  description : Str
  code : Str
  funcs : Dict FunctionRecord
deriving DecidableEq

/-- The fields of a `DocsBuilder` instance that `extract` assigns and
`build` reads: `self.module`, `self.devs`, `self.desc`, `self.classes`,
`self.funcs`. -/
structure DocsState where
  module : Str
  devs : Str
  desc : Str
  classes : Dict ClassRecord
  funcs : Dict FunctionRecord
deriving DecidableEq

/- ### `extract_params`: the parameter entry parser

Source regexes:
  `param_re  = re.compile(r"(?s)\w+ : .*?(?=\w+ :)")`
  `param_re2 = re.compile(r"(?s)\w+ : .*")`
With DOTALL, `.` matches every character.  In `\w+ : ` the word run must be
maximal (the following literal is a space, which is not a word character, so
backtracking a shorter run always fails), and the lookahead `(?=\w+ :)`
holds at a position exactly when the maximal word run starting there is
non-empty and is followed by the two characters " :". -/

/-- Does the lookahead `\w+ :` match at this position? -/
def lookaheadParam (l : Str) : Bool :=
  let run := l.takeWhile isWordChar
  !run.isEmpty && (chars " :").isPrefixOf (l.dropWhile isWordChar)

/-- Length consumed by the lazy `.*?` before the first position where the
lookahead `(?=\w+ :)` succeeds; `none` when no such position exists. -/
def lazyLenParam : Str → Option Nat
  | [] => none
  | c :: rest =>
    if lookaheadParam (c :: rest) then some 0
    else (lazyLenParam rest).map (· + 1)

/-- Try `\w+ : .*?(?=\w+ :)` anchored at the head of `l`. -/
def paramMatchAt1 (l : Str) : Option Str :=
  if (l.takeWhile isWordChar).isEmpty then none
  else if (chars " : ").isPrefixOf (l.dropWhile isWordChar) then
    (lazyLenParam ((l.dropWhile isWordChar).drop 3)).map
      fun k => l.takeWhile isWordChar ++ chars " : " ++ ((l.dropWhile isWordChar).drop 3).take k
  else none

/-- Leftmost match of `param_re` (Python `re.search` scans start positions
left to right). -/
def paramRe1 : Str → Option Str
  | [] => none
  | c :: rest =>
    match paramMatchAt1 (c :: rest) with
    | some m => some m
    | none => paramRe1 rest

/-- Try `\w+ : .*` (DOTALL, greedy: to the end of the text) anchored at the
head of `l`. -/
def paramMatchAt2 (l : Str) : Option Str :=
  let run := l.takeWhile isWordChar
  if run.isEmpty then none
  else if (chars " : ").isPrefixOf (l.dropWhile isWordChar) then some l
  else none

/-- Leftmost match of `param_re2`. -/
def paramRe2 : Str → Option Str
  | [] => none
  | c :: rest =>
    match paramMatchAt2 (c :: rest) with
    | some m => some m
    | none => paramRe2 rest

/-- The loop body first searches with `param_re`, then falls back to
`param_re2`. -/
def paramSearch (text : Str) : Option Str :=
  match paramRe1 text with
  | some m => some m
  | none => paramRe2 text

/-- Processing of one matched parameter block:
`new_param.split('\n')`, `name, dtype = new_param[0].split(":")` (a Python
unpacking that raises ValueError unless the first line holds exactly one
colon, modelled by `none`), description join and whitespace collapse, the
`optional` check with truncation of `dtype` at the first comma, and the
final `.strip()` calls. -/
def paramEntry (m : Str) : Option (Str × ParamRecord) :=
  match pySplit ((splitLines m).headD []) [':'] with
  | [name, dtype] =>
    some (pyStrip name,
      ⟨pyStrip (if containsSub dtype (chars "optional")
          then (pySplit dtype [',']).headD [] else dtype),
        pyStrip (collapseWs (joinNl (splitLines m).tail)),
        containsSub dtype (chars "optional")⟩)
  | _ => none

/-- The `while True` loop of `extract_params`, with fuel.  `none` means the
fuel ran out; `some (Except.error ())` models the ValueError escaping the
loop; `some (Except.ok params)` is normal termination.  Each iteration
removes the matched text from the working buffer with
`text.replace("\n".join(new_param), "")`. -/
def extractParamsFuel : Nat → Str → Dict ParamRecord → Option (Except Unit (Dict ParamRecord))
  | 0, _, _ => none
  | n + 1, text, params =>
    match paramSearch text with
    | none => some (Except.ok params)
    | some m =>
      match paramEntry m with
      | none => some (Except.error ())
      | some (name, rec) =>
        extractParamsFuel n (pyReplace text (joinNl (splitLines m)) []) (dictInsert name rec params)

/-- `extract_params` of the source.  The fuel `length + 1` always suffices
(see the termination theorem); the default is unreachable. -/
def extract_params (text : Str) : Except Unit (Dict ParamRecord) :=
  (extractParamsFuel (text.length + 1) text []).getD (Except.error ())

/- ### `extract_functions`: the function extractor

Source regex: `func_re = re.compile(r"(?s)def [\w\d_]+\(.*?\):\s+\"{3}.*?\"{3}")`.
`[\w\d_]` equals `\w`; the word run before `(` is maximal (the next literal
`(` is not a word character); `\s+` is the maximal whitespace run (the next
literal `"` is not whitespace, so shorter runs always fail); both `.*?` are
lazy, stopping at the first occurrence of the following literal. -/

/-- Backtracking of the lazy `.*?` before `\):` in `func_re`: Python tries
each occurrence of `):` from left to right until whitespace and a complete
docstring follow.  Returns the length consumed (from the text after the
opening parenthesis) up to and including the closing `"""`.  Fueled: every
retry advances past the occurrence it discards. -/
def funcTailAux : Nat → Str → Option Nat
  | 0, _ => none
  | n + 1, r =>
    match findSub r (chars "):") with
    | none => none
    | some i =>
      let r3 := r.drop (i + 2)
      let ws := r3.takeWhile isSpaceChar
      let here :=
        if ws.isEmpty then none
        else if (chars "\"\"\"").isPrefixOf (r3.dropWhile isSpaceChar) then
          (findSub ((r3.dropWhile isSpaceChar).drop 3) (chars "\"\"\"")).map
            (fun j => i + 2 + ws.length + 3 + j + 3)
        else none
      match here with
      | some t => some t
      | none => (funcTailAux n (r.drop (i + 1))).map (fun t => i + 1 + t)

/-- Match `func_re` anchored at the head of `l`; returns the match and the
text following it (`findall` continues after a match, non-overlapping). -/
def funcMatchAt (l : Str) : Option (Str × Str) :=
  if (chars "def ").isPrefixOf l then
    let r1 := l.drop 4
    let run := r1.takeWhile isWordChar
    if run.isEmpty then none
    else
      match r1.dropWhile isWordChar with
      | '(' :: r2 =>
        match funcTailAux (r2.length + 1) r2 with
        | none => none
        | some t =>
          let mlen := 4 + run.length + 1 + t
          some (l.take mlen, l.drop mlen)
      | _ => none
  else none

/-- `func_re.findall(code)`: leftmost matches, scanning resumes after each
match.  Fueled (each step consumes at least one character, so `length + 1`
suffices). -/
def funcFindallFuel : Nat → Str → List Str
  | 0, _ => []
  | _ + 1, [] => []
  | n + 1, c :: rest =>
    match funcMatchAt (c :: rest) with
    | some (m, remaining) => m :: funcFindallFuel n remaining
    | none => funcFindallFuel n rest

def funcFindall (code : Str) : List Str := funcFindallFuel (code.length + 1) code

/-- `re.search(r"def [\w\d_]+\(", func)`: leftmost occurrence of a function
header, returning the matched text `def <name>(`. -/
def funcNameSearch : Str → Option Str
  | [] => none
  | c :: rest =>
    let l := c :: rest
    let attempt :=
      if (chars "def ").isPrefixOf l then
        let run := (l.drop 4).takeWhile isWordChar
        if run.isEmpty then none
        else if ((l.drop 4).dropWhile isWordChar).headD ' ' = '(' then
          some (chars "def " ++ run ++ ['('])
        else none
      else none
    match attempt with
    | some m => some m
    | none => funcNameSearch rest

/-- `re.search(r"(?s)\"{3}.*\"", func)`: from the leftmost `"""`, greedy to
the last `"` of the text.  When no `"` follows the first `"""`, no later
start can succeed either (any other `"""` would put a `"` after the first
one), so the scan over later start positions is not needed. -/
def descSearch (l : Str) : Option Str :=
  match findSub l (chars "\"\"\"") with
  | none => none
  | some p =>
    match lastIdxOf (l.drop (p + 3)) '"' with
    | none => none
    | some j => some ((l.drop p).take (3 + j + 1))

/-- Processing of one `func_re` match inside the loop of
`extract_functions`: name extraction and cleanup, docstring isolation,
`desc, params = desc.split("Parameters\n")` (ValueError unless exactly two
pieces, modelled by `none`), drop of the `Returns` section, and the call to
`extract_params`. -/
def funcEntry (func : Str) : Option (Str × FunctionRecord) :=
  match funcNameSearch func with
  | none => none
  | some nm =>
    match descSearch func with
    | none => none
    | some d =>
      match pySplit d (chars "Parameters\n") with
      | [desc, params] =>
        let name := pyStrip (pyReplace (pyReplace nm (chars "def ") []) ['('] [])
        let desc := pyStrip (collapseWs (pyReplace desc (chars "\"\"\"") []))
        let params := (pySplit params (chars "Returns\n")).headD []
        match extract_params params with
        | Except.error _ => none
        | Except.ok ps => some (name, ⟨desc, ps⟩)
      | _ => none

/-- `extract_functions` of the source.  `none` models any exception raised by
the body of its `for` loop. -/
def funcStep (acc : Option (Dict FunctionRecord)) (f : Str) : Option (Dict FunctionRecord) :=
  acc.bind fun d => (funcEntry f).map fun nr => dictInsert nr.1 nr.2 d

def extract_functions (code : Str) : Option (Dict FunctionRecord) :=
  (funcFindall code).foldl funcStep (some [])

/- ### `extract_module`: the module header parser

Source regex: `re.search(r"(?sm)^\"{3}.*^\"{3}", code)`: a `"""` at a line
start, then greedy DOTALL `.*`, then a `"""` at a line start — so the match
runs from the first line-start `"""` to the last line-start `"""` of the
text.  When the leftmost start position admits no closing `"""`, no later
one does either (a later line-start `"""` would itself close the first). -/

/-- Positions that begin a line (offset 0 or preceded by a newline) and
carry a `"""`. -/
def blockStartsAux : Str → Nat → Bool → List Nat
  | [], _, _ => []
  | c :: rest, i, atStart =>
    let here := if atStart && (chars "\"\"\"").isPrefixOf (c :: rest) then [i] else []
    here ++ blockStartsAux rest (i + 1) (c = '\n')

def blockStarts (l : Str) : List Nat := blockStartsAux l 0 true

/-- The `(?sm)^\"{3}.*^\"{3}` search: from the first candidate start to the
last candidate start at distance at least 3, keeping that closing `"""`. -/
def firstBlock (l : Str) : Option Str :=
  match blockStarts l with
  | [] => none
  | p :: rest =>
    match (rest.filter (fun r => p + 3 ≤ r)).getLast? with
    | none => none
    | some r => some ((l.drop p).take (r + 3 - p))

/-- `re.search(r"Developers:\n.*", text)`: the literal, then (no DOTALL) the
remainder of that line. -/
def devsSearch (l : Str) : Option Str :=
  (findSub l (chars "Developers:\n")).map fun i =>
    chars "Developers:\n" ++ (l.drop (i + 12)).takeWhile (fun c => c ≠ '\n')

/-- `extract_module` of the source.  `none` models the AttributeError of a
failed `.group()` and the IndexError of a failed subscript. -/
def extract_module (code : Str) : Option (Str × Str × Str) :=
  match firstBlock code with
  | none => none
  | some text =>
    match splitLines text with
    | _ :: l2 :: _ =>
      match devsSearch text with
      | none => none
      | some d =>
        match pySplit text (chars "Description:\n") with
        | _ :: d1 :: _ =>
          some (pyStrip l2, pyStrip (pyReplace d (chars "Developers:\n") []),
            pyStrip (pyReplace d1 (chars "\"\"\"") []))
        | _ => none
    | _ => none

/- ### The class loop of `DocsBuilder.extract`

Source regexes (compiled in `__init__`):
  `class_re     = re.compile(r"(?sm)class [\w\d_]+:.*(^.)")`
  `class_end_re = re.compile(r"(?sm)class [\w\d_]+:.*")`
With DOTALL the greedy `.*` of `class_re` runs to the end of the text and
backtracks only far enough for `(^.)` to match: one character standing at a
line start.  The match therefore extends to the LAST line start of the
whole remaining text (plus that one character), not to the next top-level
construct. -/

/-- Index of the last newline of `l`. -/
def lastNl (l : Str) : Option Nat := lastIdxOf l '\n'

/-- Match `class_re` anchored at the head of `l`. -/
def classMatchAt (l : Str) : Option Str :=
  if (chars "class ").isPrefixOf l then
    if ((l.drop 6).takeWhile isWordChar).isEmpty then none
    else
      match (l.drop 6).dropWhile isWordChar with
      | ':' :: body =>
        match lastNl body.dropLast with
        | none => none
        | some i =>
          some (chars "class " ++ (l.drop 6).takeWhile isWordChar ++ ':' :: body.take (i + 2))
      | _ => none
  else none

def classReSearch : Str → Option Str
  | [] => none
  | c :: rest =>
    match classMatchAt (c :: rest) with
    | some m => some m
    | none => classReSearch rest

/-- Match `class_end_re` anchored at the head of `l`: greedy DOTALL `.*`
takes everything to the end of the text. -/
def classEndMatchAt (l : Str) : Option Str :=
  if (chars "class ").isPrefixOf l then
    if ((l.drop 6).takeWhile isWordChar).isEmpty then none
    else
      match (l.drop 6).dropWhile isWordChar with
      | ':' :: _ => some l
      | _ => none
  else none

def classEndSearch : Str → Option Str
  | [] => none
  | c :: rest =>
    match classEndMatchAt (c :: rest) with
    | some m => some m
    | none => classEndSearch rest

/-- One search step of the class loop: `class_re` first, then the
`class_end_re` fallback. -/
def classSearch (code : Str) : Option Str :=
  match classReSearch code with
  | some m => some m
  | none => classEndSearch code

/-- `re.compile(r"class .*:").search(group)`: no DOTALL, so `.*` stays on
one line; greedy, so the match ends at the last colon of that line. -/
def classNameSearch : Str → Option Str
  | [] => none
  | c :: rest =>
    let l := c :: rest
    let attempt :=
      if (chars "class ").isPrefixOf l then
        let line := (l.drop 6).takeWhile (fun x => x ≠ '\n')
        match lastIdxOf line ':' with
        | none => none
        | some i => some (chars "class " ++ line.take (i + 1))
      else none
    match attempt with
    | some m => some m
    | none => classNameSearch rest

/-- Length of a match of `re.sub`'s pattern `class [\w\d_]+:` anchored at
the head of `l`. -/
def headerMatchLen (l : Str) : Option Nat :=
  if (chars "class ").isPrefixOf l then
    if ((l.drop 6).takeWhile isWordChar).isEmpty then none
    else if ((l.drop 6).drop ((l.drop 6).takeWhile isWordChar).length).headD ' ' = ':' then
      some (6 + ((l.drop 6).takeWhile isWordChar).length + 1)
    else none
  else none

theorem headerMatchLen_pos (l : Str) (k : Nat) (h : headerMatchLen l = some k) : 0 < k := by
  unfold headerMatchLen at h
  split at h
  · split at h
    · exact absurd h (by simp)
    · split at h
      · simp only [Option.some.injEq] at h
        omega
      · exact absurd h (by simp)
  · exact absurd h (by simp)

/-- `re.sub(r"class [\w\d_]+:", "", ·)`: remove every occurrence, scanning
left to right.  Fueled. -/
def subHeadersAux : Nat → Str → Str
  | _, [] => []
  | 0, l => l
  | n + 1, c :: rest =>
    match headerMatchLen (c :: rest) with
    | some k => subHeadersAux n ((c :: rest).drop k)
    | none => c :: subHeadersAux n rest

def subClassHeaders (l : Str) : Str := subHeadersAux l.length l

theorem subHeadersAux_congr :
    ∀ n m l, l.length ≤ n → l.length ≤ m → subHeadersAux n l = subHeadersAux m l := by
  intro n
  induction n with
  | zero =>
    intro m l hn _
    have : l = [] := List.eq_nil_of_length_eq_zero (Nat.le_zero.mp hn)
    subst this
    cases m <;> rfl
  | succ n ih =>
    intro m l hn hm
    cases l with
    | nil => cases m <;> rfl
    | cons c rest =>
      cases m with
      | zero => exact absurd hm (by simp)
      | succ m =>
        simp only [subHeadersAux]
        cases hk : headerMatchLen (c :: rest) with
        | some k =>
          have hkpos := headerMatchLen_pos _ _ hk
          have hdl : ((c :: rest).drop k).length ≤ n := by
            have hld := List.length_drop k (c :: rest)
            simp only [List.length_cons] at hn hld
            omega
          have hdm : ((c :: rest).drop k).length ≤ m := by
            have hld := List.length_drop k (c :: rest)
            simp only [List.length_cons] at hm hld
            omega
          simp only []
          rw [ih m ((c :: rest).drop k) hdl hdm]
        | none =>
          have h3 : rest.length ≤ n := by simp only [List.length_cons] at hn; omega
          have h4 : rest.length ≤ m := by simp only [List.length_cons] at hm; omega
          simp only []
          rw [ih m rest h3 h4]

theorem subClassHeaders_nil : subClassHeaders [] = [] := rfl

theorem subClassHeaders_cons (c : Char) (rest : Str) :
    subClassHeaders (c :: rest) =
      match headerMatchLen (c :: rest) with
      | some k => subClassHeaders ((c :: rest).drop k)
      | none => c :: subClassHeaders rest := by
  simp only [subClassHeaders, List.length_cons, subHeadersAux]
  cases hk : headerMatchLen (c :: rest) with
  | some k =>
    have hkpos := headerMatchLen_pos _ _ hk
    exact subHeadersAux_congr rest.length ((c :: rest).drop k).length ((c :: rest).drop k)
      (by
        have hld := List.length_drop k (c :: rest)
        simp only [List.length_cons] at hld
        omega)
      (Nat.le_refl _)
  | none => rfl

/-- Match of the class-description probe
`re.compile(r"(?s)class [\w\d_]+:[\n\s]+\"{3}.*?\"{3}")` anchored at the
head of `l`, returning the three varying parts (word run, whitespace run,
docstring content).  `[\n\s]` is `\s`; the whitespace run is maximal (the
following literal `"` is not whitespace); `.*?` is lazy. -/
def classDescMatchAt (l : Str) : Option (Str × Str × Str) :=
  if (chars "class ").isPrefixOf l then
    if ((l.drop 6).takeWhile isWordChar).isEmpty then none
    else
      match (l.drop 6).dropWhile isWordChar with
      | ':' :: r2 =>
        if (r2.takeWhile isSpaceChar).isEmpty then none
        else if (chars "\"\"\"").isPrefixOf (r2.dropWhile isSpaceChar) then
          (findSub ((r2.dropWhile isSpaceChar).drop 3) (chars "\"\"\"")).map
            fun j =>
              ((l.drop 6).takeWhile isWordChar, r2.takeWhile isSpaceChar,
                ((r2.dropWhile isSpaceChar).drop 3).take j)
        else none
      | _ => none
  else none

def classDescSearch : Str → Option (Str × Str × Str)
  | [] => none
  | c :: rest =>
    match classDescMatchAt (c :: rest) with
    | some m => some m
    | none => classDescSearch rest

/-- The text matched by the class-description probe, reassembled from its
parts. -/
def classDescGroup (run ws content : Str) : Str :=
  chars "class " ++ run ++ ':' :: (ws ++ chars "\"\"\"" ++ content ++ chars "\"\"\"")

/-- The stored class description: the matched text with every
`class [\w\d_]+:` occurrence removed, every `"""` removed, and whitespace
runs collapsed — and, unlike function descriptions, NOT stripped. -/
def classDescOf (run ws content : Str) : Str :=
  collapseWs (pyReplace (subClassHeaders (classDescGroup run ws content)) (chars "\"\"\"") [])

/-- The class loop of `DocsBuilder.extract`, fueled.  `none` means the fuel
ran out; `Except.error ()` models an exception escaping the loop body (a
failed `.group()` or a ValueError from `extract_functions`); `Except.ok`
returns the classes found together with the mutated remaining text. -/
def extractClassesFuel : Nat → Str → Dict ClassRecord → Option (Except Unit (Dict ClassRecord × Str))
  | 0, _, _ => none
  | n + 1, code, classes =>
    match classSearch code with
    | none => some (Except.ok (classes, code))
    | some g =>
      let code := pyReplace code g.dropLast []
      match classNameSearch g with
      | none => some (Except.error ())
      | some nm =>
        let name := pyReplace (pyReplace nm (chars "class ") []) [':'] []
        let desc :=
          match classDescSearch g with
          | some (run, ws, content) => classDescOf run ws content
          | none => []
        match extract_functions g.dropLast with
        | none => some (Except.error ())
        | some funcs =>
          extractClassesFuel n code (dictInsert name ⟨desc, g.dropLast, funcs⟩ classes)

/-- `DocsBuilder.extract`.  Every field of the builder state is overwritten;
the prior state `self` is never read.  `none` models an exception escaping
`extract` (no model is produced). -/
def DocsBuilder.extract (_self : DocsState) (code : Str) : Option DocsState :=
  match extract_module code with
  | none => none
  | some (module, devs, desc) =>
    match extractClassesFuel (code.length + 1) code [] with
    | none => none
    | some (Except.error _) => none
    | some (Except.ok (classes, code)) =>
      match extract_functions code with
      | none => none
      | some funcs => some ⟨module, devs, desc, classes, funcs⟩

/- ### The page renderer: `functions_html`, `build_page`, `DocsBuilder.build` -/

def joinCommaSpace (ls : List Str) : Str := List.intercalate (chars ", ") ls

/-- `functions_html(funcs)`: one `<li>` entry per function, with a parameter
table when the function has parameters.  Optional parameters are wrapped in
emphasis tags with a star. -/
def functions_html (funcs : Dict FunctionRecord) : Str :=
  let html := chars "\n        <h2>Functions</h2>\n        <br>\n        <ul>\n    "
  let html := funcs.foldl
    (fun html nf =>
      let name := nf.1
      let html := html ++
        chars "\n        <li class=\"list-group-item\" id=\"func_" ++ name ++
        chars "\">\n          <h4>" ++ name ++
        chars "</h4>\n          <kbd>" ++ name ++ chars "(" ++
        joinCommaSpace (nf.2.parameters.map (fun pp => pp.1)) ++
        chars ")</kbd><br><br>\n          <p>\n            " ++ nf.2.description ++
        chars "\n          </p>\n        "
      let html :=
        if nf.2.parameters.length > 0 then
          let html := html ++
            chars "\n          <!-- Parameters table for " ++ name ++
            chars " -->\n          <table class=\"table table-hover\">\n            <tbody>\n            "
          let html := nf.2.parameters.foldl
            (fun html pp =>
              let opt1 := if pp.2.optional then chars "<em>" else []
              let opt2 := if pp.2.optional then chars "*</em>" else []
              html ++
                chars "\n              <tr>\n                <th scope=\"row\">" ++
                opt1 ++ pp.1 ++ opt2 ++
                chars "</th>\n                <td>\n                  " ++ pp.2.description ++
                chars "\n                </td>\n              </tr>\n                ")
            html
          html ++ chars "\n            </tbody>\n          </table>\n            "
        else html
      html ++ chars "\n        </li>\n        <br>\n        ")
    html
  html ++ chars "\n        </ul>\n    "

/-- One linked (non-terminal) breadcrumb entry. -/
def crumbLink (path layer : Str) : Str :=
  chars "\n        <li class=\"breadcrumb-item active\"><a href=\"" ++ path ++
  chars "\">" ++ layer ++ chars "</a></li>\n            "

/-- The terminal breadcrumb entry: plain text, no hyperlink, marks the
current page. -/
def crumbCurrent (layer : Str) : Str :=
  chars "\n        <li class=\"breadcrumb-item\" aria-current=\"page\">" ++ layer ++
  chars "</li>\n            "

/-- The `for i, layer in enumerate(fullpath)` breadcrumb loop of
`build_page`: every non-terminal segment becomes a link to the
lowercased, dot-joined path plus `.html`; the terminal segment is the
plain current-page entry. -/
def breadcrumbItems (fullpath : List Str) : List Str :=
  (List.range fullpath.length).map fun i =>
    if i + 1 ≠ fullpath.length then
      crumbLink
        (List.intercalate (chars ".")
          ((fullpath.take (i + 1)).map fun part => pyReplace (pyLower part) [' '] (chars "_"))
          ++ chars ".html")
        (fullpath.getD i [])
    else crumbCurrent (fullpath.getD i [])

/-- `build_page` of the source.  The typed embedding passes an empty
mapping where the source passes its `classes=""` / `funcs=""` defaults
(only their `len(·) > 0` is ever consulted).  `devs` is accepted and, as in
the source, never used in the document. -/
def build_page (module _devs desc : Str) (classes : Dict ClassRecord)
    (funcs : Dict FunctionRecord) (submodule : Str) : Str :=
  let fullpath := if submodule ≠ [] then [module, submodule] else [module]
  let last := fullpath.getLastD []
  let html :=
    chars "\n<!DOCTYPE html>\n<html lang=\"en\">\n\n<head>\n\n<meta charset=\"utf-8\">\n<meta name=\"viewport\" content=\"width=device-width, initial-scale=1, shrink-to-fit=no\">\n<meta name=\"description\" content=\"" ++
    last ++
    chars " docs\">\n<meta name=\"author\" content=\"James Briggs\">\n\n<title>" ++
    last ++
    chars " docs</title>\n\n<link href=\"templates/bootstrap.min.css\" rel=\"stylesheet\">\n\n</head>\n\n<body>\n\n<!-- Navigation -->\n<script src=\"templates/navbar.js\"></script>\n\n<!-- Page Content -->\n<div class=\"container\">\n<div class=\"row\">\n  <div class=\"col-lg-12 text-left\">\n\n    <h1 class=\"mt-5\">" ++
    last ++
    chars "</h1>\n    <p class=\"lead\">\n      " ++ desc ++
    chars "\n    </p>\n\n    <br>\n\n    <!-- Breadcrumb Navigation -->\n    <nav aria-label=\"breadcrumb\">\n      <ol class=\"breadcrumb\">\n        <li class=\"breadcrumb-item active\"><a href=\"../readme.html\">Readme</a></li>\n    "
  let html := html ++ (breadcrumbItems fullpath).foldl (fun a b => a ++ b) []
  let html := html ++ chars "\n      </ol>\n    </nav>\n\n    <br>\n\n    "
  let html :=
    if classes.length > 0 then
      let html := html ++
        chars "\n    <h2>Classes</h2>\n    <div class=\"row\">\n      <!-- Class Buttons -->\n      <div class=\"col-4\">\n        <div class=\"list-group\" id=\"list-mod\" role=\"tablist\">\n        "
      let html := classes.foldl
        (fun html nc =>
          html ++
          chars "\n          <a class=\"list-group-item list-group-item-action\" id=\"label_" ++
          nc.1 ++ chars "\" data-toggle=\"list\" href=\"#card_" ++ nc.1 ++
          chars "\" role=\"tab\" aria-controls=\"home\">" ++ nc.1 ++
          chars "</a>\n            ")
        html
      let html := html ++
        chars "\n        </div>\n      </div>\n      <!-- Class Button Contents -->\n      <div class=\"col-8\">\n        <div class=\"tab-content\" id=\"nav-tabContent\">\n        "
      let html := classes.foldl
        (fun html nc =>
          html ++
          chars "\n          <div class=\"tab-pane fade\" id=\"card_" ++ nc.1 ++
          chars "\" role=\"tabpanel\" aria-labelledby=\"label_" ++ nc.1 ++
          chars "\">\n            <p>\n              " ++ nc.2.description ++
          chars "\n            </p>\n            <p>\n              <a href=\"" ++
          pyReplace (pyLower module) [' '] (chars "_") ++ chars "." ++ nc.1 ++
          chars ".html\">Click here for documentation</a>\n            </p>\n          </div>\n            ")
        html
      html ++ chars "\n        </div>\n      </div>\n    </div>\n\n    <br>\n        "
    else html
  let html := if funcs.length > 0 then html ++ functions_html funcs else html
  html ++
    chars "\n  </div>\n</div>\n</div>\n<br>\n\n<!-- Bootstrap core JavaScript -->\n<script src=\"templates/jquery.min.js\"></script>\n<script src=\"templates/bootstrap.bundle.min.js\"></script>\n\n</body>\n\n</html>\n    "

/-- `DocsBuilder.build`: the module page first, then one page per class in
insertion order, keyed `<filename>.<classname>`.  The persistence calls
(`output`) and console prints of the source are external I/O and are not
part of the rendered documents. -/
def DocsBuilder.build (self : DocsState) : Dict Str :=
  let filename := pyReplace (pyLower self.module) [' '] (chars "_")
  let pages : Dict Str :=
    dictInsert filename (build_page self.module self.devs self.desc self.classes self.funcs []) []
  if self.classes.length > 0 then
    self.classes.foldl
      (fun pages c =>
        dictInsert (filename ++ '.' :: c.1)
          (build_page self.module self.devs c.2.description [] c.2.funcs c.1) pages)
      pages
  else pages

/- ### General helper lemmas -/

theorem isPrefixOf_expand {pat l : Str} (h : pat.isPrefixOf l = true) :
    l = pat ++ l.drop pat.length := by
  obtain ⟨t, ht⟩ := List.isPrefixOf_iff_prefix.mp h
  rw [← ht, List.drop_left]

theorem containsSub_cons_false {c : Char} {rest pat : Str}
    (h : containsSub (c :: rest) pat = false) :
    pat.isPrefixOf (c :: rest) = false ∧ containsSub rest pat = false := by
  have := h
  unfold containsSub at this
  simpa [Bool.or_eq_false_iff] using this

theorem findSub_eq_none {pat : Str} : ∀ l, containsSub l pat = false → findSub l pat = none := by
  intro l
  induction l with
  | nil =>
    intro h
    unfold containsSub at h
    unfold findSub
    rw [if_neg (by simp [h])]
  | cons c rest ih =>
    intro h
    obtain ⟨h1, h2⟩ := containsSub_cons_false h
    unfold findSub
    rw [if_neg (by simp [h1]), ih h2]
    rfl

theorem pySplit_ne_nil (p : Char) (ps : Str) (l : Str) : pySplit l (p :: ps) ≠ [] := by
  cases l with
  | nil => simp [pySplit, splitAux]
  | cons c rest =>
    rw [pySplit_cons]
    by_cases hpre : (p :: ps).isPrefixOf (c :: rest) = true
    · rw [if_pos hpre]; simp
    · rw [if_neg hpre]
      cases pySplit rest (p :: ps) <;> simp

theorem pySplit_of_not_contains {p : Char} {ps : Str} :
    ∀ l, containsSub l (p :: ps) = false → pySplit l (p :: ps) = [l] := by
  intro l
  induction l with
  | nil => intro _; rfl
  | cons c rest ih =>
    intro h
    obtain ⟨h1, h2⟩ := containsSub_cons_false h
    rw [pySplit_cons, if_neg (by simp [h1]), ih h2]

theorem pySplit_single_length (c : Char) :
    ∀ l : Str, (pySplit l [c]).length = l.count c + 1 := by
  intro l
  induction l with
  | nil => simp [pySplit, splitAux]
  | cons x rest ih =>
    rw [pySplit_cons]
    by_cases hpre : [c].isPrefixOf (x :: rest) = true
    · rw [if_pos hpre]
      have hxe : c = x := by simpa [List.isPrefixOf] using hpre
      subst hxe
      simp only [List.length_nil, List.drop_zero, List.length_cons]
      rw [ih, List.count_cons]
      simp
    · rw [if_neg hpre]
      have hxc : ¬ c = x := by
        intro hh
        exact hpre (by simp [List.isPrefixOf, hh])
      cases hsp : pySplit rest [c] with
      | nil => exact absurd hsp (pySplit_ne_nil c [] rest)
      | cons s tl =>
        rw [hsp] at ih
        simp only [List.length_cons] at ih ⊢
        rw [List.count_cons]
        have : (x == c) = false := by
          rw [beq_eq_false_iff_ne]
          intro hh
          exact hxc hh.symm
        simp [this]
        omega

theorem pySplit_no_occ_single {c : Char} {l : Str} (h : c ∉ l) : pySplit l [c] = [l] := by
  apply pySplit_of_not_contains
  induction l with
  | nil => rfl
  | cons x rest ih =>
    unfold containsSub
    have hx : x ≠ c := by intro hh; exact h (by simp [hh])
    have hr : c ∉ rest := by intro hh; exact h (by simp [hh])
    rw [Bool.or_eq_false_iff]
    have hcx : ¬ c = x := fun hh => hx hh.symm
    constructor
    · simp [List.isPrefixOf, hcx]
    · exact ih hr

theorem pySplit_pair (c : Char) :
    ∀ a b : Str, c ∉ a → c ∉ b → pySplit (a ++ c :: b) [c] = [a, b] := by
  intro a
  induction a with
  | nil =>
    intro b _ hb
    rw [List.nil_append, pySplit_cons, if_pos (by simp [List.isPrefixOf])]
    simp only [List.length_nil, List.drop_zero]
    rw [pySplit_no_occ_single hb]
  | cons x a' ih =>
    intro b ha hb
    have hx : x ≠ c := by intro hh; exact ha (by simp [hh])
    have ha' : c ∉ a' := by intro hh; exact ha (by simp [hh])
    have hcx : ¬ c = x := fun hh => hx hh.symm
    rw [List.cons_append, pySplit_cons,
      if_neg (by simp [List.isPrefixOf, hcx]), ih b ha' hb]

theorem joinNl_pair (x y : Str) (tl : List Str) :
    joinNl (x :: y :: tl) = x ++ '\n' :: joinNl (y :: tl) := rfl

theorem joinNl_splitLines : ∀ l : Str, joinNl (splitLines l) = l := by
  intro l
  induction l with
  | nil => rfl
  | cons x rest ih =>
    unfold splitLines at ih ⊢
    rw [pySplit_cons]
    by_cases hx : ['\n'].isPrefixOf (x :: rest) = true
    · rw [if_pos hx]
      have hxe : '\n' = x := by simpa [List.isPrefixOf] using hx
      simp only [List.length_nil, List.drop_zero]
      cases hsp : pySplit rest ['\n'] with
      | nil => exact absurd hsp (pySplit_ne_nil '\n' [] rest)
      | cons s tl =>
        rw [hsp] at ih
        rw [joinNl_pair]
        simp only [List.nil_append]
        rw [ih, ← hxe]
    · rw [if_neg hx]
      cases hsp : pySplit rest ['\n'] with
      | nil => exact absurd hsp (pySplit_ne_nil '\n' [] rest)
      | cons s tl =>
        rw [hsp] at ih
        cases tl with
        | nil =>
          simp only [joinNl] at ih ⊢
          rw [ih]
        | cons t ts =>
          rw [joinNl_pair] at ih ⊢
          rw [List.cons_append, ih]

/- ### Shrinkage of the mutating loops -/

theorem replaceAux_length_le (p : Char) (ps : Str) :
    ∀ n l, (replaceAux p ps [] n l).length ≤ l.length := by
  intro n
  induction n with
  | zero =>
    intro l
    cases l <;> simp [replaceAux]
  | succ n ih =>
    intro l
    cases l with
    | nil => simp [replaceAux]
    | cons c rest =>
      simp only [replaceAux]
      by_cases hpre : (p :: ps).isPrefixOf (c :: rest) = true
      · rw [if_pos hpre]
        have h1 := ih (rest.drop ps.length)
        have h2 := List.length_drop ps.length rest
        simp only [List.nil_append, List.length_cons]
        omega
      · rw [if_neg hpre]
        have h1 := ih rest
        simp only [List.length_cons]
        omega

theorem infix_cons_not_prefix {pat : Str} {c : Char} {rest : Str}
    (hinf : pat <:+: (c :: rest)) (hnp : pat.isPrefixOf (c :: rest) = false) : pat <:+: rest := by
  obtain ⟨s, t, hst⟩ := hinf
  cases s with
  | nil =>
    exfalso
    have hp : pat <+: c :: rest := ⟨t, by simpa using hst⟩
    rw [List.isPrefixOf_iff_prefix.mpr hp] at hnp
    simp at hnp
  | cons a s' =>
    have : a :: (s' ++ pat ++ t) = c :: rest := by simpa using hst
    exact ⟨s', t, by simpa using congrArg List.tail this⟩

theorem replaceAux_length_lt (p : Char) (ps : Str) :
    ∀ n l, l.length ≤ n → (p :: ps) <:+: l → (replaceAux p ps [] n l).length < l.length := by
  intro n
  induction n with
  | zero =>
    intro l hn hinf
    have := hinf.length_le
    have : l = [] := List.eq_nil_of_length_eq_zero (Nat.le_zero.mp hn)
    subst this
    have := hinf.length_le
    simp at this
  | succ n ih =>
    intro l hn hinf
    cases l with
    | nil =>
      have := hinf.length_le
      simp at this
    | cons c rest =>
      simp only [replaceAux]
      by_cases hpre : (p :: ps).isPrefixOf (c :: rest) = true
      · rw [if_pos hpre]
        have h1 := replaceAux_length_le p ps n (rest.drop ps.length)
        have h2 := List.length_drop ps.length rest
        simp only [List.nil_append, List.length_cons]
        omega
      · rw [if_neg hpre]
        have hinf2 := infix_cons_not_prefix hinf (Bool.not_eq_true _ |>.mp hpre)
        have hrest : rest.length ≤ n := by simp only [List.length_cons] at hn; omega
        have := ih rest hrest hinf2
        simp only [List.length_cons]
        omega

theorem pyReplace_length_lt {l : Str} (p : Char) (ps : Str) (hinf : (p :: ps) <:+: l) :
    (pyReplace l (p :: ps) []).length < l.length := by
  unfold pyReplace
  exact replaceAux_length_lt p ps l.length l (Nat.le_refl _) hinf

/- ### Structure of the scanner matches -/

theorem paramMatchAt1_shape {l m : Str} (h : paramMatchAt1 l = some m) :
    m <+: l ∧ m ≠ [] := by
  unfold paramMatchAt1 at h
  by_cases hrun : (l.takeWhile isWordChar).isEmpty = true
  · rw [if_pos hrun] at h
    exact absurd h (by simp)
  · rw [if_neg hrun] at h
    by_cases hsep : (chars " : ").isPrefixOf (l.dropWhile isWordChar) = true
    · rw [if_pos hsep] at h
      cases hk : lazyLenParam ((l.dropWhile isWordChar).drop 3) with
      | none => rw [hk] at h; exact absurd h (by simp)
      | some k =>
        rw [hk] at h
        simp only [Option.map, Option.some.injEq] at h
        subst h
        constructor
        · have hl : l = l.takeWhile isWordChar ++ l.dropWhile isWordChar :=
            (List.takeWhile_append_dropWhile isWordChar l).symm
          have hd : l.dropWhile isWordChar =
              chars " : " ++ (l.dropWhile isWordChar).drop 3 := by
            have := isPrefixOf_expand hsep
            simpa using this
          conv_rhs => rw [hl, hd]
          rw [List.append_assoc, List.prefix_append_right_inj, List.prefix_append_right_inj]
          exact List.take_prefix k _
        · intro hcon
          have hlen := congrArg List.length hcon
          have h3 : (chars " : ").length = 3 := rfl
          simp only [List.length_append, List.length_nil] at hlen
          omega
    · rw [if_neg hsep] at h
      exact absurd h (by simp)

theorem paramRe1_infix : ∀ l m : Str, paramRe1 l = some m → m <:+: l ∧ m ≠ [] := by
  intro l
  induction l with
  | nil => intro m h; exact absurd h (by simp [paramRe1])
  | cons c rest ih =>
    intro m h
    unfold paramRe1 at h
    cases hm : paramMatchAt1 (c :: rest) with
    | some m' =>
      rw [hm] at h
      simp only [Option.some.injEq] at h
      subst h
      obtain ⟨hp, hne⟩ := paramMatchAt1_shape hm
      exact ⟨hp.isInfix, hne⟩
    | none =>
      rw [hm] at h
      obtain ⟨hi, hne⟩ := ih m h
      exact ⟨hi.trans (List.infix_cons (List.infix_refl rest)), hne⟩

theorem paramMatchAt2_shape {l m : Str} (h : paramMatchAt2 l = some m) :
    m = l ∧ m ≠ [] := by
  unfold paramMatchAt2 at h
  by_cases hrun : (l.takeWhile isWordChar).isEmpty = true
  · rw [if_pos hrun] at h
    exact absurd h (by simp)
  · rw [if_neg hrun] at h
    by_cases hsep : (chars " : ").isPrefixOf (l.dropWhile isWordChar) = true
    · rw [if_pos hsep] at h
      simp only [Option.some.injEq] at h
      subst h
      refine ⟨rfl, ?_⟩
      intro hcon
      subst hcon
      simp at hrun
    · rw [if_neg hsep] at h
      exact absurd h (by simp)

theorem paramRe2_infix : ∀ l m : Str, paramRe2 l = some m → m <:+: l ∧ m ≠ [] := by
  intro l
  induction l with
  | nil => intro m h; exact absurd h (by simp [paramRe2])
  | cons c rest ih =>
    intro m h
    unfold paramRe2 at h
    cases hm : paramMatchAt2 (c :: rest) with
    | some m' =>
      rw [hm] at h
      simp only [Option.some.injEq] at h
      subst h
      obtain ⟨he, hne⟩ := paramMatchAt2_shape hm
      subst he
      exact ⟨List.infix_refl _, hne⟩
    | none =>
      rw [hm] at h
      obtain ⟨hi, hne⟩ := ih m h
      exact ⟨hi.trans (List.infix_cons (List.infix_refl rest)), hne⟩

theorem paramSearch_infix {text m : Str} (h : paramSearch text = some m) :
    m <:+: text ∧ m ≠ [] := by
  unfold paramSearch at h
  cases h1 : paramRe1 text with
  | some m' =>
    rw [h1] at h
    simp only [Option.some.injEq] at h
    subst h
    exact paramRe1_infix text m' h1
  | none =>
    rw [h1] at h
    exact paramRe2_infix text m h

theorem classMatchAt_shape {l m : Str} (h : classMatchAt l = some m) :
    m <+: l ∧ 2 ≤ m.length := by
  unfold classMatchAt at h
  by_cases hcl : (chars "class ").isPrefixOf l = true
  · rw [if_pos hcl] at h
    by_cases hrun : ((l.drop 6).takeWhile isWordChar).isEmpty = true
    · rw [if_pos hrun] at h
      exact absurd h (by simp)
    · rw [if_neg hrun] at h
      cases hdrop : (l.drop 6).dropWhile isWordChar with
      | nil => rw [hdrop] at h; exact absurd h (by simp)
      | cons c0 body =>
        rw [hdrop] at h
        split at h
        · rename_i body' heq
          injection heq with hc0 hb
          subst hc0
          subst hb
          cases hnl : lastNl body.dropLast with
          | none => rw [hnl] at h; exact absurd h (by simp)
          | some i =>
            rw [hnl] at h
            simp only [Option.some.injEq] at h
            subst h
            constructor
            · have hl2 : l = chars "class " ++ l.drop 6 := by
                have := isPrefixOf_expand hcl
                simpa using this
              have hr2 : l.drop 6 = (l.drop 6).takeWhile isWordChar ++ ':' :: body := by
                conv_lhs => rw [← List.takeWhile_append_dropWhile isWordChar (l.drop 6)]
                rw [hdrop]
              conv_rhs => rw [hl2, hr2]
              rw [List.append_assoc, List.prefix_append_right_inj,
                List.prefix_append_right_inj, List.cons_prefix_cons]
              exact ⟨rfl, List.take_prefix _ _⟩
            · have h6 : (chars "class ").length = 6 := rfl
              simp only [List.length_append, List.length_cons]
              omega
        · exact absurd h (by simp)
  · rw [if_neg hcl] at h
    exact absurd h (by simp)

theorem classReSearch_shape : ∀ l m : Str, classReSearch l = some m → m <:+: l ∧ 2 ≤ m.length := by
  intro l
  induction l with
  | nil => intro m h; exact absurd h (by simp [classReSearch])
  | cons c rest ih =>
    intro m h
    unfold classReSearch at h
    cases hm : classMatchAt (c :: rest) with
    | some m' =>
      rw [hm] at h
      simp only [Option.some.injEq] at h
      subst h
      obtain ⟨hp, hlen⟩ := classMatchAt_shape hm
      exact ⟨hp.isInfix, hlen⟩
    | none =>
      rw [hm] at h
      obtain ⟨hi, hlen⟩ := ih m h
      exact ⟨hi.trans (List.infix_cons (List.infix_refl rest)), hlen⟩

theorem classEndMatchAt_shape {l m : Str} (h : classEndMatchAt l = some m) :
    m = l ∧ 2 ≤ m.length := by
  unfold classEndMatchAt at h
  by_cases hcl : (chars "class ").isPrefixOf l = true
  · rw [if_pos hcl] at h
    by_cases hrun : ((l.drop 6).takeWhile isWordChar).isEmpty = true
    · rw [if_pos hrun] at h
      exact absurd h (by simp)
    · rw [if_neg hrun] at h
      cases hdrop : (l.drop 6).dropWhile isWordChar with
      | nil => rw [hdrop] at h; exact absurd h (by simp)
      | cons c0 body =>
        rw [hdrop] at h
        split at h
        · simp only [Option.some.injEq] at h
          subst h
          refine ⟨rfl, ?_⟩
          have h6 : (chars "class ").length = 6 := rfl
          have := List.isPrefixOf_iff_prefix.mp hcl |>.length_le
          omega
        · exact absurd h (by simp)
  · rw [if_neg hcl] at h
    exact absurd h (by simp)

theorem classEndSearch_shape : ∀ l m : Str, classEndSearch l = some m → m <:+: l ∧ 2 ≤ m.length := by
  intro l
  induction l with
  | nil => intro m h; exact absurd h (by simp [classEndSearch])
  | cons c rest ih =>
    intro m h
    unfold classEndSearch at h
    cases hm : classEndMatchAt (c :: rest) with
    | some m' =>
      rw [hm] at h
      simp only [Option.some.injEq] at h
      subst h
      obtain ⟨he, hlen⟩ := classEndMatchAt_shape hm
      subst he
      exact ⟨List.infix_refl _, hlen⟩
    | none =>
      rw [hm] at h
      obtain ⟨hi, hlen⟩ := ih m h
      exact ⟨hi.trans (List.infix_cons (List.infix_refl rest)), hlen⟩

theorem classSearch_shape {code g : Str} (h : classSearch code = some g) :
    g.dropLast <:+: code ∧ g.dropLast ≠ [] := by
  have hsh : g <:+: code ∧ 2 ≤ g.length := by
    unfold classSearch at h
    cases h1 : classReSearch code with
    | some m =>
      rw [h1] at h
      simp only [Option.some.injEq] at h
      subst h
      exact classReSearch_shape code _ h1
    | none =>
      rw [h1] at h
      exact classEndSearch_shape code _ h
  obtain ⟨hinf, hlen⟩ := hsh
  constructor
  · exact ((List.dropLast_prefix g).isInfix).trans hinf
  · apply List.ne_nil_of_length_pos
    rw [List.length_dropLast]
    omega

/- ### Termination of the two mutating loops -/

theorem extractParamsFuel_total :
    ∀ n text params, text.length < n → extractParamsFuel n text params ≠ none := by
  intro n
  induction n with
  | zero => intro text params h; omega
  | succ n ih =>
    intro text params h
    unfold extractParamsFuel
    cases hs : paramSearch text with
    | none => simp
    | some m =>
      simp only []
      cases he : paramEntry m with
      | none => simp
      | some nr =>
        obtain ⟨name, rec⟩ := nr
        simp only []
        have hlt : (pyReplace text (joinNl (splitLines m)) []).length < text.length := by
          rw [joinNl_splitLines m]
          obtain ⟨hinf, hne⟩ := paramSearch_infix hs
          cases m with
          | nil => exact absurd rfl hne
          | cons p ps => exact pyReplace_length_lt p ps hinf
        exact ih _ (dictInsert name rec params) (by omega)

theorem extractClassesFuel_total :
    ∀ n code classes, code.length < n → extractClassesFuel n code classes ≠ none := by
  intro n
  induction n with
  | zero => intro code classes h; omega
  | succ n ih =>
    intro code classes h
    unfold extractClassesFuel
    cases hs : classSearch code with
    | none => simp
    | some g =>
      simp only []
      have hlt : (pyReplace code g.dropLast []).length < code.length := by
        obtain ⟨hinf, hne⟩ := classSearch_shape hs
        cases hdl : g.dropLast with
        | nil => exact absurd hdl hne
        | cons p ps =>
          rw [hdl] at hinf
          exact pyReplace_length_lt p ps hinf
      cases hn : classNameSearch g with
      | none => simp
      | some nm =>
        simp only []
        cases hf : extract_functions g.dropLast with
        | none => simp
        | some funcs =>
          simp only []
          exact ih _ _ (by omega)

/- ### Failure propagation in the `extract_functions` loop -/

theorem foldl_funcStep_none : ∀ l : List Str, l.foldl funcStep none = none := by
  intro l
  induction l with
  | nil => rfl
  | cons f rest ih =>
    have hstep : funcStep none f = none := rfl
    simp only [List.foldl_cons, hstep, ih]

theorem foldl_funcStep_mem_none :
    ∀ (l : List Str) (acc : Option (Dict FunctionRecord)) (m : Str),
      m ∈ l → funcEntry m = none → l.foldl funcStep acc = none := by
  intro l
  induction l with
  | nil => intro acc m hm _; simp at hm
  | cons f rest ih =>
    intro acc m hm he
    rcases List.mem_cons.mp hm with hf | hr
    · subst hf
      have hstep : funcStep acc m = none := by
        unfold funcStep
        rw [he]
        cases acc <;> rfl
      simp only [List.foldl_cons, hstep]
      exact foldl_funcStep_none rest
    · simp only [List.foldl_cons]
      exact ih (funcStep acc f) m hr he

theorem funcEntry_none_of_no_params {m d : Str} (hd : descSearch m = some d)
    (hp : containsSub d (chars "Parameters\n") = false) : funcEntry m = none := by
  unfold funcEntry
  cases hn : funcNameSearch m with
  | none => rfl
  | some nm =>
    simp only []
    rw [hd]
    simp only []
    have hchar : chars "Parameters\n" = 'P' :: chars "arameters\n" := rfl
    have hsplit : pySplit d (chars "Parameters\n") = [d] := by
      rw [hchar]
      exact pySplit_of_not_contains d (by rw [← hchar]; exact hp)
    rw [hsplit]

/- ### Lemmas about whitespace, stripping and the class description -/

theorem takeWhile_all_append {p : Char → Bool} :
    ∀ (xs : Str) (y : Char) (ys : Str), (∀ x ∈ xs, p x = true) → p y = false →
      (xs ++ y :: ys).takeWhile p = xs := by
  intro xs
  induction xs with
  | nil =>
    intro y ys _ hy
    simp [List.takeWhile_cons, hy]
  | cons a as ih =>
    intro y ys hall hy
    have ha : p a = true := hall a (by simp)
    rw [List.cons_append, List.takeWhile_cons, if_pos ha,
      ih y ys (fun x hx => hall x (by simp [hx])) hy]

theorem dropWhile_all_append {p : Char → Bool} :
    ∀ (xs : Str) (y : Char) (ys : Str), (∀ x ∈ xs, p x = true) → p y = false →
      (xs ++ y :: ys).dropWhile p = y :: ys := by
  intro xs
  induction xs with
  | nil =>
    intro y ys _ hy
    simp [List.dropWhile_cons, hy]
  | cons a as ih =>
    intro y ys hall hy
    have ha : p a = true := hall a (by simp)
    rw [List.cons_append, List.dropWhile_cons, if_pos ha,
      ih y ys (fun x hx => hall x (by simp [hx])) hy]

theorem isSpaceChar_cases {w : Char} (h : isSpaceChar w = true) :
    w = ' ' ∨ w = '\t' ∨ w = '\n' ∨ w = '\r' ∨ w = '\x0b' ∨ w = '\x0c' := by
  have := h
  simp [isSpaceChar] at this
  tauto

theorem isSpaceChar_ne_c {w : Char} (h : isSpaceChar w = true) : w ≠ 'c' := by
  rcases isSpaceChar_cases h with rfl | rfl | rfl | rfl | rfl | rfl <;> decide

theorem isSpaceChar_ne_quote {w : Char} (h : isSpaceChar w = true) : w ≠ '"' := by
  rcases isSpaceChar_cases h with rfl | rfl | rfl | rfl | rfl | rfl <;> decide

theorem classDescMatchAt_inv {l run ws content : Str}
    (h : classDescMatchAt l = some (run, ws, content)) :
    run ≠ [] ∧ (∀ x ∈ run, isWordChar x = true) ∧
    ws ≠ [] ∧ (∀ x ∈ ws, isSpaceChar x = true) := by
  unfold classDescMatchAt at h
  by_cases hcl : (chars "class ").isPrefixOf l = true
  · rw [if_pos hcl] at h
    by_cases hrun : ((l.drop 6).takeWhile isWordChar).isEmpty = true
    · rw [if_pos hrun] at h
      exact absurd h (by simp)
    · rw [if_neg hrun] at h
      cases hdrop : (l.drop 6).dropWhile isWordChar with
      | nil => rw [hdrop] at h; exact absurd h (by simp)
      | cons c0 r2 =>
        rw [hdrop] at h
        split at h
        · rename_i r2' heq
          injection heq with hc0 hr2
          subst hc0
          subst hr2
          by_cases hws : (r2.takeWhile isSpaceChar).isEmpty = true
          · rw [if_pos hws] at h
            exact absurd h (by simp)
          · rw [if_neg hws] at h
            by_cases hq : (chars "\"\"\"").isPrefixOf (r2.dropWhile isSpaceChar) = true
            · rw [if_pos hq] at h
              cases hj : findSub ((r2.dropWhile isSpaceChar).drop 3) (chars "\"\"\"") with
              | none => rw [hj] at h; exact absurd h (by simp)
              | some j =>
                rw [hj] at h
                simp only [Option.map, Option.some.injEq, Prod.mk.injEq] at h
                obtain ⟨h1, h2, _⟩ := h
                subst h1
                subst h2
                refine ⟨?_, ?_, ?_, ?_⟩
                · intro hcon
                  rw [hcon] at hrun
                  simp at hrun
                · intro x hx
                  exact List.mem_takeWhile_imp hx
                · intro hcon
                  rw [hcon] at hws
                  simp at hws
                · intro x hx
                  exact List.mem_takeWhile_imp hx
            · rw [if_neg hq] at h
              exact absurd h (by simp)
        · exact absurd h (by simp)
  · rw [if_neg hcl] at h
    exact absurd h (by simp)

theorem classDescSearch_inv :
    ∀ l run ws content : Str, classDescSearch l = some (run, ws, content) →
      run ≠ [] ∧ (∀ x ∈ run, isWordChar x = true) ∧
      ws ≠ [] ∧ (∀ x ∈ ws, isSpaceChar x = true) := by
  intro l
  induction l with
  | nil => intro run ws content h; exact absurd h (by simp [classDescSearch])
  | cons c rest ih =>
    intro run ws content h
    unfold classDescSearch at h
    cases hm : classDescMatchAt (c :: rest) with
    | some t =>
      rw [hm] at h
      simp only [Option.some.injEq] at h
      subst h
      exact classDescMatchAt_inv hm
    | none =>
      rw [hm] at h
      exact ih run ws content h

theorem headerMatchLen_header (run tail2 : Str) (hrun : run ≠ [])
    (hall : ∀ x ∈ run, isWordChar x = true) :
    headerMatchLen (chars "class " ++ run ++ ':' :: tail2) = some (6 + run.length + 1) := by
  unfold headerMatchLen
  have hpre : (chars "class ").isPrefixOf (chars "class " ++ run ++ ':' :: tail2) = true := by
    apply List.isPrefixOf_iff_prefix.mpr
    rw [List.append_assoc]
    exact List.prefix_append _ _
  rw [if_pos hpre]
  have hdrop6 : (chars "class " ++ run ++ ':' :: tail2).drop 6 = run ++ ':' :: tail2 := by
    rw [List.append_assoc]
    exact List.drop_left' rfl
  rw [hdrop6]
  have htw : (run ++ ':' :: tail2).takeWhile isWordChar = run :=
    takeWhile_all_append run ':' tail2 hall (by decide)
  rw [htw]
  have hdr : (run ++ ':' :: tail2).drop run.length = ':' :: tail2 := List.drop_left' rfl
  rw [hdr, if_neg (by simp [hrun]), if_pos (by simp)]

theorem subClassHeaders_header (run tail2 : Str) (hrun : run ≠ [])
    (hall : ∀ x ∈ run, isWordChar x = true) :
    subClassHeaders (chars "class " ++ run ++ ':' :: tail2) = subClassHeaders tail2 := by
  have hczc : chars "class " ++ run ++ ':' :: tail2 =
      'c' :: (chars "lass " ++ run ++ ':' :: tail2) := rfl
  rw [hczc, subClassHeaders_cons, ← hczc, headerMatchLen_header run tail2 hrun hall]
  simp only []
  congr 1
  have hassoc : chars "class " ++ run ++ ':' :: tail2 =
      (chars "class " ++ run ++ [':']) ++ tail2 := by simp
  rw [hassoc]
  apply List.drop_left'
  simp only [List.length_append, List.length_cons, List.length_nil]
  have h6 : (chars "class ").length = 6 := rfl
  omega

theorem subClassHeaders_space_cons {w : Char} (hw : isSpaceChar w = true) (rest : Str) :
    subClassHeaders (w :: rest) = w :: subClassHeaders rest := by
  rw [subClassHeaders_cons]
  have hnc : headerMatchLen (w :: rest) = none := by
    unfold headerMatchLen
    have hwc : ('c' == w) = false := beq_eq_false_iff_ne.mpr (Ne.symm (isSpaceChar_ne_c hw))
    rw [if_neg (by simp [List.isPrefixOf, hwc])]
  rw [hnc]

theorem pyReplace_space_cons {w : Char} (hw : isSpaceChar w = true) (rest : Str) :
    pyReplace (w :: rest) (chars "\"\"\"") [] = w :: pyReplace rest (chars "\"\"\"") [] := by
  have hq : chars "\"\"\"" = '"' :: chars "\"\"" := rfl
  have hwq : ('"' == w) = false := beq_eq_false_iff_ne.mpr (Ne.symm (isSpaceChar_ne_quote hw))
  rw [hq, pyReplace_cons, if_neg (by simp [List.isPrefixOf, hwq])]

theorem collapseWs_space_head {w : Char} (hw : isSpaceChar w = true) (rest : Str) :
    collapseWs (w :: rest) = ' ' :: collapseWs (rest.dropWhile isSpaceChar) := by
  rw [collapseWs_cons, if_pos hw]

/-- The stored class description always begins with a single space: the
matched text starts `class <run>:<whitespace>`, the header is removed by the
sub, the whitespace survives the quote removal, and the collapse turns the
leading whitespace run into one space. -/
theorem classDescOf_head {g run ws content : Str}
    (h : classDescSearch g = some (run, ws, content)) :
    (classDescOf run ws content).head? = some ' ' := by
  obtain ⟨hrun, hallr, hws, hallw⟩ := classDescSearch_inv g run ws content h
  unfold classDescOf classDescGroup
  rw [subClassHeaders_header _ _ hrun hallr]
  cases ws with
  | nil => exact absurd rfl hws
  | cons w ws' =>
    have hw : isSpaceChar w = true := hallw w (by simp)
    simp only [List.cons_append]
    rw [subClassHeaders_space_cons hw, pyReplace_space_cons hw, collapseWs_space_head hw]
    rfl

/- ### Stripping invariant of the function descriptions -/

theorem dropWhile_head_false (p : Char → Bool) (l : Str) {c : Char}
    (h : (l.dropWhile p).head? = some c) : p c = false := by
  have hm := List.head?_dropWhile_not p l
  rw [h] at hm
  exact hm

theorem dropWhile_eq_self_of_head (p : Char → Bool) (l : Str)
    (h : ∀ c, l.head? = some c → p c = false) : l.dropWhile p = l := by
  cases l with
  | nil => rfl
  | cons c rest =>
    rw [List.dropWhile_cons, if_neg (by simp [h c rfl])]

theorem pyStrip_idem (l : Str) : pyStrip (pyStrip l) = pyStrip l := by
  unfold pyStrip
  have h1 : (((l.dropWhile isSpaceChar).reverse.dropWhile isSpaceChar).reverse).dropWhile
      isSpaceChar = ((l.dropWhile isSpaceChar).reverse.dropWhile isSpaceChar).reverse := by
    apply dropWhile_eq_self_of_head
    intro c hc
    rw [List.head?_reverse] at hc
    obtain ⟨pre, hpre⟩ :=
      List.dropWhile_suffix (l := (l.dropWhile isSpaceChar).reverse) isSpaceChar
    have hlast : ((l.dropWhile isSpaceChar).reverse).getLast? = some c := by
      rw [← hpre, List.getLast?_append, hc]
      rfl
    rw [List.getLast?_reverse] at hlast
    exact dropWhile_head_false isSpaceChar l hlast
  rw [h1, List.reverse_reverse]
  have h2 : ((l.dropWhile isSpaceChar).reverse.dropWhile isSpaceChar).dropWhile isSpaceChar =
      (l.dropWhile isSpaceChar).reverse.dropWhile isSpaceChar := by
    apply dropWhile_eq_self_of_head
    intro c hc
    exact dropWhile_head_false isSpaceChar (l.dropWhile isSpaceChar).reverse hc
  rw [h2]

theorem dictInsert_mem {α : Type} {k : Str} {v : α} :
    ∀ (d : Dict α) (x : Str × α), x ∈ dictInsert k v d → x = (k, v) ∨ x ∈ d := by
  intro d
  induction d with
  | nil =>
    intro x hx
    simp [dictInsert] at hx
    exact Or.inl hx
  | cons kv rest ih =>
    intro x hx
    obtain ⟨k', v'⟩ := kv
    unfold dictInsert at hx
    by_cases hk : k' = k
    · rw [if_pos hk] at hx
      rcases List.mem_cons.mp hx with h1 | h2
      · exact Or.inl h1
      · exact Or.inr (by simp [h2])
    · rw [if_neg hk] at hx
      rcases List.mem_cons.mp hx with h1 | h2
      · exact Or.inr (by simp [h1])
      · rcases ih x h2 with h3 | h4
        · exact Or.inl h3
        · exact Or.inr (by simp [h4])

theorem funcEntry_stripped {f n : Str} {r : FunctionRecord} (h : funcEntry f = some (n, r)) :
    pyStrip r.description = r.description := by
  unfold funcEntry at h
  cases h1 : funcNameSearch f with
  | none => rw [h1] at h; exact absurd h (by simp)
  | some nm =>
    rw [h1] at h
    simp only [] at h
    cases h2 : descSearch f with
    | none => rw [h2] at h; exact absurd h (by simp)
    | some d =>
      rw [h2] at h
      simp only [] at h
      cases h3 : pySplit d (chars "Parameters\n") with
      | nil => rw [h3] at h; exact absurd h (by simp)
      | cons a tl =>
        rw [h3] at h
        cases tl with
        | nil => exact absurd h (by simp)
        | cons b tl2 =>
          cases tl2 with
          | nil =>
            simp only [] at h
            cases h4 : extract_params ((pySplit b (chars "Returns\n")).headD []) with
            | error e => rw [h4] at h; exact absurd h (by simp)
            | ok ps =>
              rw [h4] at h
              simp only [Option.some.injEq, Prod.mk.injEq] at h
              obtain ⟨_, hr⟩ := h
              rw [← hr]
              exact pyStrip_idem _
          | cons cc tl3 => exact absurd h (by simp)

theorem foldl_funcStep_stripped :
    ∀ (l : List Str) (d : Dict FunctionRecord) (res : Dict FunctionRecord),
      (∀ nr ∈ d, pyStrip (nr.2.description) = nr.2.description) →
      l.foldl funcStep (some d) = some res →
      ∀ nr ∈ res, pyStrip (nr.2.description) = nr.2.description := by
  intro l
  induction l with
  | nil =>
    intro d res hinv hfold
    simp only [List.foldl_nil, Option.some.injEq] at hfold
    subst hfold
    exact hinv
  | cons f rest ih =>
    intro d res hinv hfold
    rw [List.foldl_cons] at hfold
    cases hfe : funcEntry f with
    | none =>
      have hstep : funcStep (some d) f = none := by
        unfold funcStep
        rw [hfe]
        rfl
      rw [hstep, foldl_funcStep_none rest] at hfold
      exact absurd hfold (by simp)
    | some nr =>
      obtain ⟨n, r⟩ := nr
      have hstep : funcStep (some d) f = some (dictInsert n r d) := by
        unfold funcStep
        rw [hfe]
        rfl
      rw [hstep] at hfold
      refine ih (dictInsert n r d) res ?_ hfold
      intro x hx
      rcases dictInsert_mem d x hx with h1 | h2
      · subst h1
        exact funcEntry_stripped hfe
      · exact hinv x h2

/-- Every function record stored by `extract_functions` carries a stripped
description (no leading or trailing whitespace survives `.strip()`). -/
theorem extract_functions_stripped {code : Str} {res : Dict FunctionRecord}
    (h : extract_functions code = some res) :
    ∀ nr ∈ res, pyStrip (nr.2.description) = nr.2.description := by
  unfold extract_functions at h
  exact foldl_funcStep_stripped (funcFindall code) [] res (by simp) h

/- ### Behavior of one parameter-entry processing step -/

theorem paramEntry_single_colon {m pre post : Str}
    (hline : (splitLines m).headD [] = pre ++ ':' :: post)
    (hpre : ':' ∉ pre) (hpost : ':' ∉ post) :
    paramEntry m = some (pyStrip pre,
      ⟨pyStrip (if containsSub post (chars "optional")
          then (pySplit post [',']).headD [] else post),
        pyStrip (collapseWs (joinNl (splitLines m).tail)),
        containsSub post (chars "optional")⟩) := by
  unfold paramEntry
  rw [hline, pySplit_pair ':' pre post hpre hpost]

theorem paramEntry_two_colons {m pre mid post : Str}
    (hline : (splitLines m).headD [] = pre ++ ':' :: mid ++ ':' :: post) :
    paramEntry m = none := by
  unfold paramEntry
  rw [hline]
  have hlen : (pySplit (pre ++ ':' :: mid ++ ':' :: post) [':']).length =
      (pre ++ ':' :: mid ++ ':' :: post).count ':' + 1 :=
    pySplit_single_length ':' _
  have hcount : 2 ≤ (pre ++ ':' :: mid ++ ':' :: post).count ':' := by
    simp only [List.count_append, List.count_cons]
    simp
    omega
  cases hsp : pySplit (pre ++ ':' :: mid ++ ':' :: post) [':'] with
  | nil => rfl
  | cons a tl =>
    cases tl with
    | nil => rfl
    | cons b tl2 =>
      cases tl2 with
      | nil =>
        rw [hsp] at hlen
        simp only [List.length_cons, List.length_nil] at hlen
        omega
      | cons c tl3 => rfl

/- ### The breadcrumb loop on a single-segment path -/

theorem breadcrumbItems_single (m : Str) : breadcrumbItems [m] = [crumbCurrent m] := by
  unfold breadcrumbItems
  rw [show ([m] : List Str).length = 1 from rfl, show List.range 1 = [0] from rfl]
  simp [List.getD]

/- ### Concrete texts used to instantiate the claims -/

def tParams : Str :=
  chars "data : dict\n    Input records.\nthreshold : float, optional\n    Cutoff value."

def tNoParams : Str := chars "def f():\n    \"\"\"Only a summary.\"\"\"\n"

def tNoParamsW : Str := chars "def k():\n    \"\"\"Short summary.\"\"\"\n"

def tTwoClasses : Str :=
  chars "class A:\n    def f(self):\n        \"\"\"Fd\n        Parameters\n        \"\"\"\nclass B:\n    def g(self):\n        \"\"\"Gd\n        Parameters\n        \"\"\"\ndef h():\n    pass\n"

def tDevsMidLine : Str := chars "\"\"\"\nMod\nxxDevelopers:\nJim\nDescription:\nDd\n\"\"\""

def tNoDevs : Str := chars "\"\"\"\nMod\nDescription:\nDd\n\"\"\""

def tColons : Str := chars "x : a:b\n    d"

def tOneColon : Str := chars "x : int\n    d"

def tModuleOnly : Str := chars "\"\"\"\nM\nDevelopers:\nD\nDescription:\nX\n\"\"\""

def st0 : DocsState := ⟨chars "M", chars "D", chars "X", [], []⟩

def tClassX : Str :=
  chars "\"\"\"\nM\nDevelopers:\nD\nDescription:\nX\n\"\"\"\nclass A:\n    \"\"\"x\"\"\"\ndef tail():\n    pass\n"

def tPadFunc : Str := chars "def f():\n    \"\"\" Pad. \n    Parameters\n    \"\"\""

def demoState : DocsState :=
  ⟨chars "module", chars "dev", chars "md",
    [(chars "A", ⟨chars "da", [], [(chars "g", ⟨chars "dg", []⟩)]⟩),
     (chars "B", ⟨chars "db", [], [(chars "h", ⟨chars "dh", []⟩)]⟩)],
    [(chars "f", ⟨chars "df", []⟩)]⟩

/- ### The claims -/

/-- C1 (counterexample): the Function Extractor matches a documented
function whose docstring contains no `Parameters` heading, and
`extract_functions` then fails (the two-target unpacking of
`desc.split("Parameters\n")` raises) instead of returning a record with an
empty parameter mapping. -/
theorem c1_counterexample :
    funcFindall tNoParams = [chars "def f():\n    \"\"\"Only a summary.\"\"\""] ∧
    descSearch (chars "def f():\n    \"\"\"Only a summary.\"\"\"") =
      some (chars "\"\"\"Only a summary.\"\"\"") ∧
    containsSub (chars "\"\"\"Only a summary.\"\"\"") (chars "Parameters\n") = false ∧
    extract_functions tNoParams = none := by
  exact ⟨by decide, by decide, by decide, by decide⟩

/-- C1 (amended): for every function block matched by the Function
Extractor whose docstring text contains no `Parameters` heading,
`extract_functions` raises an error (returns no mapping at all) rather than
producing a record with empty parameters. -/
theorem c1_no_params_heading_errors {code m d : Str}
    (hm : m ∈ funcFindall code) (hd : descSearch m = some d)
    (hp : containsSub d (chars "Parameters\n") = false) :
    extract_functions code = none := by
  unfold extract_functions
  exact foldl_funcStep_mem_none (funcFindall code) (some []) m hm
    (funcEntry_none_of_no_params hd hp)

theorem c1_witness :
    (chars "def k():\n    \"\"\"Short summary.\"\"\"" ∈ funcFindall tNoParamsW) ∧
    descSearch (chars "def k():\n    \"\"\"Short summary.\"\"\"") =
      some (chars "\"\"\"Short summary.\"\"\"") ∧
    containsSub (chars "\"\"\"Short summary.\"\"\"") (chars "Parameters\n") = false ∧
    extract_functions tNoParamsW = none :=
  ⟨by decide, by decide, by decide,
    c1_no_params_heading_errors (m := chars "def k():\n    \"\"\"Short summary.\"\"\"")
      (d := chars "\"\"\"Short summary.\"\"\"") (by decide) (by decide) (by decide)⟩

/-- Projection used to state the class-extraction behavior: the names of
the extracted classes, and for each class the names of the functions
attributed to it (empty summaries if the loop failed or ran out of fuel,
which the instance below shows does not happen). -/
def classExtractSummary (code : Str) : List (Str × List Str) :=
  match extractClassesFuel (code.length + 1) code [] with
  | some (Except.ok (cs, _)) => cs.map (fun kv => (kv.1, kv.2.funcs.map (fun f => f.1)))
  | _ => []

set_option maxRecDepth 8000 in
/-- C2: on a module text holding `class A`, then `class B`, then a
top-level `def h`, the class loop produces a SINGLE class record `A`, and
both `f` (of A) and `g` (of B) are attributed to it — the greedy
`(?sm)class [\w\d_]+:.*(^.)` match runs to the last line start of the whole
text, not to the next top-level construct, contradicting the claim (and the
loop comment "this must be done in a loop for multiple classes"). -/
theorem c2_single_swallowing_record :
    classExtractSummary tTwoClasses = [(chars "A", [chars "f", chars "g"])] := by
  decide

/-- C3: the spec's concrete parameter-section example is parsed exactly as
stated: two entries, in declaration order, `threshold` optional with its
qualifier clause stripped. -/
theorem c3_param_example :
    extract_params tParams = Except.ok
      [(chars "data", ⟨chars "dict", chars "Input records.", false⟩),
       (chars "threshold", ⟨chars "float", chars "Cutoff value.", true⟩)] := by
  rfl

/-- C4: a Documentation Model with no classes and no functions renders to
exactly one page — the module page, keyed by the lowercased,
underscore-joined module name — and the breadcrumb loop over the
single-segment path emits exactly one entry: the module name rendered as
the plain, non-linked current-page item. -/
theorem c4_empty_model_single_page (st : DocsState)
    (hc : st.classes = []) (hf : st.funcs = []) :
    DocsBuilder.build st =
      [(pyReplace (pyLower st.module) [' '] (chars "_"),
        build_page st.module st.devs st.desc [] [] [])] ∧
    breadcrumbItems [st.module] = [crumbCurrent st.module] := by
  constructor
  · unfold DocsBuilder.build
    rw [hc, hf]
    simp [dictInsert]
  · exact breadcrumbItems_single st.module

theorem c4_witness :
    DocsBuilder.build ⟨chars "m", chars "d", chars "x", [], []⟩ =
      [(pyReplace (pyLower (chars "m")) [' '] (chars "_"),
        build_page (chars "m") (chars "d") (chars "x") [] [] [])] ∧
    breadcrumbItems [chars "m"] = [crumbCurrent (chars "m")] :=
  c4_empty_model_single_page ⟨chars "m", chars "d", chars "x", [], []⟩ rfl rfl

set_option maxRecDepth 10000 in
/-- C5: for the model with module `module`, classes `A` and `B` (with
functions `g` and `h` respectively) and module-level function `f`, the
renderer emits exactly the pages `module`, `module.A`, `module.B` in that
order; the function entry for `f` appears only on the module page, the
entries for `g`/`h` only on their own class pages, and the class index
entries for `A` and `B` appear on the module page. -/
theorem c5_pages :
    (DocsBuilder.build demoState).map (fun kv => kv.1) =
      [chars "module", chars "module.A", chars "module.B"] ∧
    (DocsBuilder.build demoState).map
      (fun kv => containsSub kv.2 (chars "id=\"func_f\"")) = [true, false, false] ∧
    (DocsBuilder.build demoState).map
      (fun kv => containsSub kv.2 (chars "id=\"func_g\"")) = [false, true, false] ∧
    (DocsBuilder.build demoState).map
      (fun kv => containsSub kv.2 (chars "id=\"func_h\"")) = [false, false, true] ∧
    (DocsBuilder.build demoState).map
      (fun kv => containsSub kv.2 (chars "id=\"label_A\"")) = [true, false, false] ∧
    (DocsBuilder.build demoState).map
      (fun kv => containsSub kv.2 (chars "id=\"label_B\"")) = [true, false, false] := by
  exact ⟨by decide, by decide, by decide, by decide, by decide, by decide⟩

/-- C6 (counterexample): a source text whose first triple-quoted block
contains no line equal to `Developers:` — it contains `xxDevelopers:`
instead — is nevertheless parsed successfully by `extract_module`, because
the code searches for the substring `Developers:` followed by a newline
anywhere, not for a whole line.  The claim's universal statement is false
as written. -/
theorem c6_counterexample :
    firstBlock tDevsMidLine = some tDevsMidLine ∧
    (chars "Developers:") ∉ splitLines tDevsMidLine ∧
    extract_module tDevsMidLine = some (chars "Mod", chars "Jim", chars "Dd") := by
  exact ⟨by decide, by decide, by decide⟩

/-- C6 (amended): for every source text whose first triple-quoted block
does not contain the substring `Developers:` immediately followed by a
newline, `extract_module` raises (returns `none`) and produces no partial
module record. -/
theorem c6_no_devs_marker_errors {code b : Str}
    (hb : firstBlock code = some b)
    (hno : containsSub b (chars "Developers:\n") = false) :
    extract_module code = none := by
  unfold extract_module
  rw [hb]
  simp only []
  cases hsp : splitLines b with
  | nil => rfl
  | cons l1 tl =>
    cases tl with
    | nil => rfl
    | cons l2 tl2 =>
      simp only []
      have hdev : devsSearch b = none := by
        unfold devsSearch
        rw [findSub_eq_none b hno]
        rfl
      rw [hdev]

theorem c6_witness :
    firstBlock tNoDevs = some tNoDevs ∧
    containsSub tNoDevs (chars "Developers:\n") = false ∧
    extract_module tNoDevs = none :=
  ⟨by decide, by decide, c6_no_devs_marker_errors (b := tNoDevs) (by decide) (by decide)⟩

/-- C7 (counterexample): on a parameter entry whose first line holds two
colons (`x : a:b`), the Parameter Entry Parser does not derive a name and
dtype around the first colon — the two-target unpacking of
`new_param[0].split(":")` raises ValueError and `extract_params` fails. -/
theorem c7_counterexample :
    paramSearch tColons = some tColons ∧
    extract_params tColons = Except.error () := by
  exact ⟨by decide, by rfl⟩

/-- C7 (amended): for a matched parameter entry whose first line holds
exactly one colon, the entry's name is the stripped text before that colon
and the dtype derives from the text after it (truncated at the first comma
when it mentions `optional`, then stripped); when the first line holds more
than one colon, the entry processing raises instead. -/
theorem c7_entry_first_colon {t m : Str} (_h : paramSearch t = some m) :
    (∀ pre post : Str,
      (splitLines m).headD [] = pre ++ ':' :: post → ':' ∉ pre → ':' ∉ post →
      paramEntry m = some (pyStrip pre,
        ⟨pyStrip (if containsSub post (chars "optional")
            then (pySplit post [',']).headD [] else post),
          pyStrip (collapseWs (joinNl (splitLines m).tail)),
          containsSub post (chars "optional")⟩)) ∧
    (∀ pre mid post : Str,
      (splitLines m).headD [] = pre ++ ':' :: mid ++ ':' :: post →
      paramEntry m = none) := by
  exact ⟨fun pre post hl h1 h2 => paramEntry_single_colon hl h1 h2,
    fun pre mid post hl => paramEntry_two_colons hl⟩

theorem c7_witness :
    paramSearch tOneColon = some tOneColon ∧
    paramEntry tOneColon = some (pyStrip (chars "x "),
      ⟨pyStrip (if containsSub (chars " int") (chars "optional")
          then (pySplit (chars " int") [',']).headD [] else (chars " int")),
        pyStrip (collapseWs (joinNl (splitLines tOneColon).tail)),
        containsSub (chars " int") (chars "optional")⟩) :=
  ⟨by decide,
    (c7_entry_first_colon (t := tOneColon) (by decide)).1
      (chars "x ") (chars " int") (by decide) (by decide) (by decide)⟩

/-- C8: both search–consume–remove loops terminate on every finite input:
with fuel `length + 1` neither the `extract_params` loop nor the class loop
of `DocsBuilder.extract` ever exhausts its fuel, because every iteration
removes a non-empty matched substring from the working text. -/
theorem c8_loops_terminate :
    (∀ text : Str, (extractParamsFuel (text.length + 1) text []).isSome = true) ∧
    (∀ code : Str, (extractClassesFuel (code.length + 1) code []).isSome = true) := by
  constructor
  · intro text
    have := extractParamsFuel_total (text.length + 1) text [] (by omega)
    cases he : extractParamsFuel (text.length + 1) text [] with
    | none => exact absurd he this
    | some r => rfl
  · intro code
    have := extractClassesFuel_total (code.length + 1) code [] (by omega)
    cases he : extractClassesFuel (code.length + 1) code [] with
    | none => exact absurd he this
    | some r => rfl

/-- C9: the pipeline output depends only on the input text.  `extract`
overwrites every builder field and never reads the previous state, so after
a successful run producing state `st`, a second run of
extraction-then-render on the same text yields exactly the same pages,
byte for byte. -/
theorem c9_rerun_identical {s : DocsState} {code : Str} {st : DocsState}
    (h : DocsBuilder.extract s code = some st) :
    (DocsBuilder.extract st code).map DocsBuilder.build =
      some (DocsBuilder.build st) := by
  have hind : DocsBuilder.extract st code = DocsBuilder.extract s code := rfl
  rw [hind, h]
  rfl

theorem c9_witness :
    DocsBuilder.extract ⟨[], [], [], [], []⟩ tModuleOnly = some st0 ∧
    (DocsBuilder.extract st0 tModuleOnly).map DocsBuilder.build =
      some (DocsBuilder.build st0) :=
  ⟨by decide, c9_rerun_identical (s := ⟨[], [], [], [], []⟩) (by decide)⟩

/-- C10 (counterexample): a class whose body begins with its own
documentation block `"""x"""` (content ending in a non-whitespace
character) gets the stored description `" x"` — whitespace-collapsed,
untrimmed, with a leading space but WITHOUT the trailing space the claim
asserts. -/
theorem c10_counterexample :
    (DocsBuilder.extract ⟨[], [], [], [], []⟩ tClassX).map
        (fun st => st.classes.map (fun kv => (kv.1, kv.2.description))) =
      some [(chars "A", chars " x")] ∧
    (chars " x").getLast? = some 'x' := by
  exact ⟨by decide, by decide⟩

/-- C10 (amended): the stored class description is whitespace-collapsed and
not trimmed — it always begins with a single space (a trailing space
survives only when the documentation content itself ends in whitespace) —
whereas every function description stored by `extract_functions` is
stripped. -/
theorem c10_class_desc_untrimmed :
    (∀ g run ws content : Str, classDescSearch g = some (run, ws, content) →
      (classDescOf run ws content).head? = some ' ') ∧
    (∀ (code : Str) (res : Dict FunctionRecord) (nr : Str × FunctionRecord),
      extract_functions code = some res → nr ∈ res →
      pyStrip nr.2.description = nr.2.description) := by
  exact ⟨fun g run ws content h => classDescOf_head h,
    fun code res nr h hm => extract_functions_stripped h nr hm⟩

theorem c10_witness :
    classDescSearch (chars "class A:\n    \"\"\"doc\"\"\"") =
      some (chars "A", chars "\n    ", chars "doc") ∧
    (classDescOf (chars "A") (chars "\n    ") (chars "doc")).head? = some ' ' ∧
    extract_functions tPadFunc = some [(chars "f", ⟨chars "Pad.", []⟩)] ∧
    pyStrip (chars "Pad.") = chars "Pad." :=
  ⟨by decide,
    c10_class_desc_untrimmed.1 (chars "class A:\n    \"\"\"doc\"\"\"")
      (chars "A") (chars "\n    ") (chars "doc") (by decide),
    by decide,
    c10_class_desc_untrimmed.2 tPadFunc [(chars "f", ⟨chars "Pad.", []⟩)]
      (chars "f", ⟨chars "Pad.", []⟩) (by decide) (by decide)⟩
